import Mathlib

/-!
Verification development for the stock/price synchronization scripts
`seller.py` (marketplace A, Ozon) and `market.py` (marketplace B, Yandex
Market).  The pure decision logic of both files — count bucketing, price
normalization, list chunking, the stock/price reconcilers and the network
call sequencing of the drivers — is embedded shallowly below; network
fetches (offer catalogs, the remnants feed) are abstracted as input lists,
and Python exceptions are modelled with `Option` (`none` = the call raised).
-/

namespace SellerApis

/-- A row of the remnants feed (`ostatki.xls`): the columns the reconcilers
read are the product code, the quantity string and the price string. -/
structure RemnantRow where
  code : String
  quantity : String
  price : String
deriving DecidableEq

/-- A marketplace A stock record, `{"offer_id": ..., "stock": ...}`. -/
structure StockRecord where
  offer_id : String
  stock : Int
deriving DecidableEq

/-- A marketplace A price record as built by `seller.create_prices`. -/
structure PriceRecord where
  auto_action_enabled : String
  currency_code : String
  offer_id : String
  old_price : String
  price : String
deriving DecidableEq

/-- A marketplace B stock record as built by `market.create_stocks`:
`{"sku", "warehouseId", "items": [{"count", "type": "FIT", "updatedAt"}]}`;
the constant `type` field is omitted, `updatedAt` is the captured clock. -/
structure MarketStockRecord where
  sku : String
  warehouseId : String
  count : Int
  updatedAt : String
deriving DecidableEq

/-- A marketplace B price record as built by `market.create_prices`:
`{"id", "price": {"value", "currencyId": "RUR"}}` with the constant
currency field omitted. -/
structure MarketPriceRecord where
  id : String
  value : Int
deriving DecidableEq

/-- The base-10 value of a list of ASCII digit characters. -/
def digitsVal (l : List Char) : Nat :=
  l.foldl (fun acc c => 10 * acc + (c.toNat - 48)) 0

/-- Codepoints of the characters Python strips around an integer literal:
the characters on which `str.isspace()` holds. -/
def pySpaceCodes : List Nat :=
  [9, 10, 11, 12, 13, 28, 29, 30, 31, 32, 133, 160, 5760,
   8192, 8193, 8194, 8195, 8196, 8197, 8198, 8199, 8200, 8201, 8202,
   8232, 8233, 8239, 8287, 12288]

def isPySpace (c : Char) : Bool :=
  decide (c.toNat ∈ pySpaceCodes)

/-- Start codepoints of the Unicode decimal-digit (category Nd) blocks, as
listed in the Unicode 14 character database that CPython consults: each
block is ten consecutive codepoints denoting the digits 0 through 9. -/
def ndBlockStarts : List Nat :=
  [48, 1632, 1776, 1984, 2406, 2534, 2662, 2790, 2918, 3046, 3174, 3302,
   3430, 3558, 3664, 3792, 3872, 4160, 4240, 6112, 6160, 6470, 6608, 6784,
   6800, 6992, 7088, 7232, 7248, 42528, 43216, 43264, 43472, 43504, 43600,
   44016, 65296, 66720, 68912, 69734, 69872, 69942, 70096, 70384, 70736,
   70864, 71248, 71360, 71472, 71904, 72016, 72784, 73040, 73120, 92768,
   92864, 93008, 120782, 120792, 120802, 120812, 120822, 123200, 123632,
   125264, 130032]

/-- The decimal value of a Unicode decimal digit, `none` on any other
character. -/
def decDigit? (c : Char) : Option Nat :=
  (ndBlockStarts.find? (fun b => decide (b ≤ c.toNat ∧ c.toNat ≤ b + 9))).map
    (fun b => c.toNat - b)

/-- Digit tail of an integer literal after its first digit: decimal digits
with single underscores (codepoint 95) allowed between digits only; `acc`
is the value read so far. -/
def parseDigits : Nat → List Char → Option Nat
  | acc, [] => some acc
  | acc, c :: cs =>
    if c = Char.ofNat 95 then
      match cs with
      | [] => none
      | d :: ds =>
        match decDigit? d with
        | none => none
        | some v => parseDigits (10 * acc + v) ds
    else
      match decDigit? c with
      | none => none
      | some v => parseDigits (10 * acc + v) cs

/-- Unsigned body of an integer literal: a digit followed by the
underscore-grouped digit tail. -/
def parseBody : List Char → Option Nat
  | [] => none
  | c :: cs =>
    match decDigit? c with
    | none => none
    | some v => parseDigits v cs

/-- Remove the stripped whitespace characters from both ends. -/
def stripPySpace (l : List Char) : List Char :=
  ((l.dropWhile isPySpace).reverse.dropWhile isPySpace).reverse

/-- Sign handling of the `int()` model: after stripping, an optional single
sign (codepoints 45 and 43) followed by the literal body. -/
def parsePyIntAux : List Char → Option Int
  | [] => none
  | c :: cs =>
    if c = Char.ofNat 45 then (parseBody cs).map (fun n => -(n : Int))
    else if c = Char.ofNat 43 then (parseBody cs).map (fun n => (n : Int))
    else (parseBody (c :: cs)).map (fun n => (n : Int))

/-- Python `int()` applied to a string: surrounding whitespace is stripped,
then an optional sign followed by one or more Unicode decimal digits with
single underscores allowed between digits; anything else raises
`ValueError` (`none`). -/
def parsePyInt (s : String) : Option Int :=
  parsePyIntAux (stripPySpace s.data)

/-- The dot character, codepoint 46. -/
def dotChar : Char := Char.ofNat 46

/-- The count-bucketing policy shared by both `create_stocks` bodies:
quantity `">10"` becomes 100, `"1"` becomes 0, anything else is passed to
`int()`. -/
def bucketCount (q : String) : Option Int :=
  if q = ">10" then some 100
  else if q = "1" then some 0
  else parsePyInt q

/-- Model of `seller.price_conversion`, i.e. `re.sub("[^0-9]", "", price.split(".")[0])`:
keep only the ASCII digits of the part of the string before its first
dot. -/
def price_conversion (price : String) : String :=
  String.mk ((price.data.takeWhile (fun c => c != dotChar)).filter Char.isDigit)

/-- The chunks produced by `for i in range(0, len(lst), n): yield lst[i:i+n]`
for a positive step `k`: `range` has `ceil(len/k)` elements and the slice
`lst[i:i+k]` is `take k` of `drop i`. -/
def pyChunks (k : Nat) (lst : List α) : List (List α) :=
  (List.range ((lst.length + k - 1) / k)).map (fun i => (lst.drop (i * k)).take k)

/-- Model of `seller.divide`, consumed eagerly (the callers wrap it in `list(...)`).
`range(0, len, 0)` raises `ValueError` (`none`); a negative step gives an
empty `range`, so the generator silently yields nothing; a positive step
yields the slices of `pyChunks`. -/
def divide (lst : List α) (n : Int) : Option (List (List α)) :=
  if n = 0 then none
  else if n < 0 then some []
  else some (pyChunks n.toNat lst)

namespace Seller

/-- The first loop of `seller.create_stocks`, threading the `offer_ids`
list that the body mutates in place (`offer_ids.remove(...)` erases the
first occurrence of a present element).  Returns the matched records and
the final value of the caller's list; `none` when `int()` raises on a
matched row's quantity. -/
def create_stocksAux : List RemnantRow → List String → Option (List StockRecord × List String)
  | [], offer_ids => some ([], offer_ids)
  | w :: ws, offer_ids =>
    if w.code ∈ offer_ids then
      match bucketCount w.quantity with
      | none => none
      | some st =>
        match create_stocksAux ws (offer_ids.erase w.code) with
        | none => none
        | some (recs, rem) =>
          some ({ offer_id := w.code, stock := st } :: recs, rem)
    else create_stocksAux ws offer_ids

/-- Model of `seller.create_stocks`: the matched records followed by a zero-stock
record for every offer id left in the (mutated) list. -/
def create_stocks (watch_remnants : List RemnantRow) (offer_ids : List String) :
    Option (List StockRecord) :=
  (create_stocksAux watch_remnants offer_ids).map
    (fun p => p.1 ++ p.2.map (fun id => { offer_id := id, stock := 0 }))

/-- The loop of `seller.create_prices`, threading the `offer_ids` list the
way the interpreter does: the body only runs membership tests on it and
never mutates it, so every iteration passes it through unchanged. -/
def create_pricesAux : List RemnantRow → List String → List PriceRecord × List String
  | [], offer_ids => ([], offer_ids)
  | w :: ws, offer_ids =>
    if w.code ∈ offer_ids then
      let r := create_pricesAux ws offer_ids
      ({ auto_action_enabled := "UNKNOWN", currency_code := "RUB",
         offer_id := w.code, old_price := "0",
         price := price_conversion w.price } :: r.1, r.2)
    else create_pricesAux ws offer_ids

/-- Model of `seller.create_prices`: one record per remnant row whose code is a known
offer id. -/
def create_prices (watch_remnants : List RemnantRow) (offer_ids : List String) :
    List PriceRecord :=
  (create_pricesAux watch_remnants offer_ids).1

/-- The price list built inside `seller.main`: `main` calls
`create_stocks(watch_remnants, offer_ids)` — which removes every matched id
from `offer_ids` in place — and then passes the very same list object to
`create_prices`. -/
def main_prices (watch_remnants : List RemnantRow) (offer_ids : List String) :
    Option (List PriceRecord) :=
  (create_stocksAux watch_remnants offer_ids).map
    (fun p => create_prices watch_remnants p.2)

/-- A network update call issued by `seller.main`. -/
inductive SellerEvent
  | updateStocks (batch : List StockRecord)
  | updatePrice (batch : List PriceRecord)
deriving DecidableEq

/-- The sequence of update calls issued by the body of `seller.main` after
the catalog fetch and the feed download (modelled as the two inputs):
stock batches of 100, then price batches of 900, both built as in the
source, with the price reconciler reading the offer-id list already
consumed by `create_stocks`.  `none` when `create_stocks` raises (the run
is aborted by the `except` blocks before any call is issued). -/
def main_events (watch_remnants : List RemnantRow) (offer_ids : List String) :
    Option (List SellerEvent) :=
  match create_stocksAux watch_remnants offer_ids with
  | none => none
  | some (recs, rem) =>
    let stocks := recs ++ rem.map (fun id => { offer_id := id, stock := 0 })
    let prices := create_prices watch_remnants rem
    some ((pyChunks 100 stocks).map SellerEvent.updateStocks
      ++ (pyChunks 900 prices).map SellerEvent.updatePrice)

end Seller

namespace Market

/-- The first loop of `market.create_stocks` (same consumption discipline as
marketplace A, richer record shape): `warehouse_id` is the function argument
and `date` the timestamp string captured from `datetime.datetime.utcnow()`
at the top of the call. -/
def create_stocksAux (warehouse_id date : String) :
    List RemnantRow → List String → Option (List MarketStockRecord × List String)
  | [], offer_ids => some ([], offer_ids)
  | w :: ws, offer_ids =>
    if w.code ∈ offer_ids then
      match bucketCount w.quantity with
      | none => none
      | some st =>
        match create_stocksAux warehouse_id date ws (offer_ids.erase w.code) with
        | none => none
        | some (recs, rem) =>
          some ({ sku := w.code, warehouseId := warehouse_id,
                  count := st, updatedAt := date } :: recs, rem)
    else create_stocksAux warehouse_id date ws offer_ids

/-- Model of `market.create_stocks`. -/
def create_stocks (watch_remnants : List RemnantRow) (offer_ids : List String)
    (warehouse_id date : String) : Option (List MarketStockRecord) :=
  (create_stocksAux warehouse_id date watch_remnants offer_ids).map
    (fun p => p.1 ++ p.2.map
      (fun id => { sku := id, warehouseId := warehouse_id, count := 0, updatedAt := date }))

/-- The loop of `market.create_prices`, threading the untouched `offer_ids`
list; unlike marketplace A the record's price is
`int(price_conversion(...))`, which raises (`none`) when the normalized
price has no digit. -/
def create_pricesAux : List RemnantRow → List String → Option (List MarketPriceRecord) × List String
  | [], offer_ids => (some [], offer_ids)
  | w :: ws, offer_ids =>
    if w.code ∈ offer_ids then
      match parsePyInt (price_conversion w.price) with
      | none => (none, offer_ids)
      | some v =>
        let r := create_pricesAux ws offer_ids
        (r.1.map (fun ps => { id := w.code, value := v } :: ps), r.2)
    else create_pricesAux ws offer_ids

/-- Model of `market.create_prices`. -/
def create_prices (watch_remnants : List RemnantRow) (offer_ids : List String) :
    Option (List MarketPriceRecord) :=
  (create_pricesAux watch_remnants offer_ids).1

/-- A network update call issued by `market.main`. -/
inductive MarketEvent
  | updateStocks (batch : List MarketStockRecord)
  | updatePrice (batch : List MarketPriceRecord)
deriving DecidableEq

/-- The update calls one campaign leg of `market.main` issues: the stock
batches of 2000.  The price leg invokes the `async def upload_prices`
without awaiting it, so the coroutine body never runs and no price update
call is ever issued. -/
def main_campaign_events (watch_remnants : List RemnantRow) (offer_ids : List String)
    (warehouse_id date : String) : Option (List MarketEvent) :=
  match create_stocksAux warehouse_id date watch_remnants offer_ids with
  | none => none
  | some (recs, rem) =>
    let stocks := recs ++ rem.map
      (fun id => { sku := id, warehouseId := warehouse_id, count := 0, updatedAt := date })
    some ((pyChunks 2000 stocks).map MarketEvent.updateStocks)

/-- The update calls issued by the body of `market.main`: the FBS leg then
the DBS leg, each with its own fetched offer-id list, warehouse id and
clock reading; a raise in either leg aborts the run. -/
def main_events (watch_remnants : List RemnantRow)
    (offer_ids_fbs offer_ids_dbs : List String)
    (warehouse_fbs warehouse_dbs date_fbs date_dbs : String) :
    Option (List MarketEvent) :=
  match main_campaign_events watch_remnants offer_ids_fbs warehouse_fbs date_fbs with
  | none => none
  | some evs =>
    (main_campaign_events watch_remnants offer_ids_dbs warehouse_dbs date_dbs).map
      (fun evs2 => evs ++ evs2)

end Market

/-! ### Chunking lemmas -/

theorem pyChunks_nil (k : Nat) : pyChunks k ([] : List α) = [] := by
  unfold pyChunks
  simp only [List.length_nil]
  have h : (0 + k - 1) / k = 0 := by
    cases k with
    | zero => rfl
    | succ m => exact Nat.div_eq_of_lt (by omega)
  rw [h]
  rfl

theorem pyChunks_cons (k : Nat) (hk : 0 < k) (l : List α) (hl : l ≠ []) :
    pyChunks k l = l.take k :: pyChunks k (l.drop k) := by
  have hlen : 1 ≤ l.length := by
    cases l with
    | nil => exact absurd rfl hl
    | cons a t => simp
  unfold pyChunks
  have hcount : (l.length + k - 1) / k = ((l.drop k).length + k - 1) / k + 1 := by
    rw [List.length_drop]
    rcases le_or_lt k l.length with h | h
    · have e1 : l.length + k - 1 = (l.length - 1) + k := by omega
      have e2 : l.length - k + k - 1 = l.length - 1 := by omega
      rw [e1, e2, Nat.add_div_right _ hk]
    · have e1 : l.length - k = 0 := by omega
      have e2 : l.length + k - 1 = (l.length - 1) + k := by omega
      have e3 : (l.length - 1) / k = 0 := Nat.div_eq_of_lt (by omega)
      have e4 : (0 + k - 1) / k = 0 := Nat.div_eq_of_lt (by omega)
      rw [e1, e2, Nat.add_div_right _ hk, e3, e4]
  rw [hcount, List.range_succ_eq_map, List.map_cons, List.map_map]
  refine congrArg₂ _ (by simp) ?_
  refine List.map_congr_left (fun i _ => ?_)
  show (l.drop ((i + 1) * k)).take k = ((l.drop k).drop (i * k)).take k
  rw [List.drop_drop, Nat.succ_mul, Nat.add_comm]

theorem pyChunks_flatten_aux (k : Nat) (hk : 0 < k) :
    ∀ (n : Nat) (l : List α), l.length ≤ n → (pyChunks k l).flatten = l := by
  intro n
  induction n with
  | zero =>
    intro l h
    have hl : l = [] := List.eq_nil_of_length_eq_zero (Nat.le_zero.mp h)
    subst hl
    rw [pyChunks_nil]
    rfl
  | succ m ih =>
    intro l h
    cases l with
    | nil => rw [pyChunks_nil]; rfl
    | cons a t =>
      rw [pyChunks_cons k hk _ (by simp), List.flatten_cons,
        ih ((a :: t).drop k) ?_, List.take_append_drop]
      rw [List.length_drop]
      simp only [List.length_cons] at h ⊢
      omega

theorem pyChunks_flatten (k : Nat) (hk : 0 < k) (l : List α) :
    (pyChunks k l).flatten = l :=
  pyChunks_flatten_aux k hk l.length l le_rfl

theorem pyChunks_chunk_len_aux (k : Nat) (hk : 0 < k) :
    ∀ (n : Nat) (l : List α), l.length ≤ n →
      ∀ c ∈ (pyChunks k l).dropLast, c.length = k := by
  intro n
  induction n with
  | zero =>
    intro l h c hc
    have hl : l = [] := List.eq_nil_of_length_eq_zero (Nat.le_zero.mp h)
    subst hl
    rw [pyChunks_nil] at hc
    simp at hc
  | succ m ih =>
    intro l h c hc
    cases l with
    | nil => rw [pyChunks_nil] at hc; simp at hc
    | cons a t =>
      rw [pyChunks_cons k hk _ (by simp)] at hc
      by_cases hdrop : (a :: t).drop k = []
      · rw [hdrop, pyChunks_nil] at hc
        simp at hc
      · have htail : pyChunks k ((a :: t).drop k) ≠ [] := by
          rw [pyChunks_cons k hk _ hdrop]
          simp
        rw [List.dropLast_cons_of_ne_nil htail] at hc
        rcases List.mem_cons.mp hc with hh | hh
        · subst hh
          have hk2 : k ≤ (a :: t).length := by
            by_contra hcon
            exact hdrop (List.drop_eq_nil_of_le (le_of_not_le hcon))
          rw [List.length_take]
          omega
        · refine ih ((a :: t).drop k) ?_ c hh
          rw [List.length_drop]
          simp only [List.length_cons] at h ⊢
          omega

theorem pyChunks_chunk_len (k : Nat) (hk : 0 < k) (l : List α) :
    ∀ c ∈ (pyChunks k l).dropLast, c.length = k :=
  pyChunks_chunk_len_aux k hk l.length l le_rfl

theorem pyChunks_count (k : Nat) (l : List α) :
    (pyChunks k l).length = (l.length + k - 1) / k := by
  unfold pyChunks
  rw [List.length_map, List.length_range]

/-! ### Stock reconciler lemmas -/

namespace Seller

theorem create_stocksAux_perm :
    ∀ (ws : List RemnantRow) (offers : List String) (recs : List StockRecord)
      (rem : List String),
      create_stocksAux ws offers = some (recs, rem) →
      List.Perm (recs.map StockRecord.offer_id ++ rem) offers := by
  intro ws
  induction ws with
  | nil =>
    intro offers recs rem h
    simp only [create_stocksAux, Option.some.injEq, Prod.mk.injEq] at h
    rw [← h.1, ← h.2]
    simp
  | cons w ws ih =>
    intro offers recs rem h
    by_cases hmem : w.code ∈ offers
    · simp only [create_stocksAux, if_pos hmem] at h
      cases hb : bucketCount w.quantity with
      | none => rw [hb] at h; exact absurd h (by simp)
      | some st =>
        rw [hb] at h
        cases haux : create_stocksAux ws (offers.erase w.code) with
        | none => rw [haux] at h; exact absurd h (by simp)
        | some p =>
          obtain ⟨recs1, rem1⟩ := p
          rw [haux] at h
          simp only [Option.some.injEq, Prod.mk.injEq] at h
          rw [← h.1, ← h.2]
          have hperm := ih _ _ _ haux
          have h1 : List.Perm (w.code :: (recs1.map StockRecord.offer_id ++ rem1))
              (w.code :: offers.erase w.code) := hperm.cons w.code
          have h2 : List.Perm offers (w.code :: offers.erase w.code) :=
            List.perm_cons_erase hmem
          exact h1.trans h2.symm
    · simp only [create_stocksAux, if_neg hmem] at h
      exact ih _ _ _ h

theorem create_stocksAux_rem :
    ∀ (ws : List RemnantRow) (offers : List String) (recs : List StockRecord)
      (rem : List String), offers.Nodup →
      create_stocksAux ws offers = some (recs, rem) →
      rem = offers.filter (fun id => ws.all (fun w => w.code != id)) := by
  intro ws
  induction ws with
  | nil =>
    intro offers recs rem _ h
    simp only [create_stocksAux, Option.some.injEq, Prod.mk.injEq] at h
    rw [← h.2]
    simp
  | cons w ws ih =>
    intro offers recs rem hnd h
    by_cases hmem : w.code ∈ offers
    · simp only [create_stocksAux, if_pos hmem] at h
      cases hb : bucketCount w.quantity with
      | none => rw [hb] at h; exact absurd h (by simp)
      | some st =>
        rw [hb] at h
        cases haux : create_stocksAux ws (offers.erase w.code) with
        | none => rw [haux] at h; exact absurd h (by simp)
        | some p =>
          obtain ⟨recs1, rem1⟩ := p
          rw [haux] at h
          simp only [Option.some.injEq, Prod.mk.injEq] at h
          rw [← h.2]
          rw [ih _ _ _ (hnd.erase w.code) haux]
          rw [List.Nodup.erase_eq_filter hnd, List.filter_filter]
          refine List.filter_congr (fun id _ => ?_)
          by_cases hic : id = w.code
          · simp [List.all_cons, hic]
          · have h1 : (id != w.code) = true := by simp [hic]
            have h2 : (w.code != id) = true := by simp [Ne.symm hic]
            simp [List.all_cons, h1, h2]
    · simp only [create_stocksAux, if_neg hmem] at h
      rw [ih _ _ _ hnd h]
      refine (List.filter_congr (fun id hid => ?_)).symm
      have hne : w.code ≠ id := fun he => hmem (he ▸ hid)
      simp [List.all_cons, hne]

theorem create_stocksAux_matched :
    ∀ (ws : List RemnantRow) (offers : List String) (recs : List StockRecord)
      (rem : List String),
      create_stocksAux ws offers = some (recs, rem) →
      ∀ r ∈ recs, ∃ w ∈ ws, w.code = r.offer_id ∧ bucketCount w.quantity = some r.stock := by
  intro ws
  induction ws with
  | nil =>
    intro offers recs rem h
    simp only [create_stocksAux, Option.some.injEq, Prod.mk.injEq] at h
    rw [← h.1]
    intro r hr
    simp at hr
  | cons w ws ih =>
    intro offers recs rem h
    by_cases hmem : w.code ∈ offers
    · simp only [create_stocksAux, if_pos hmem] at h
      cases hb : bucketCount w.quantity with
      | none => rw [hb] at h; exact absurd h (by simp)
      | some st =>
        rw [hb] at h
        cases haux : create_stocksAux ws (offers.erase w.code) with
        | none => rw [haux] at h; exact absurd h (by simp)
        | some p =>
          obtain ⟨recs1, rem1⟩ := p
          rw [haux] at h
          simp only [Option.some.injEq, Prod.mk.injEq] at h
          rw [← h.1]
          intro r hr
          rcases List.mem_cons.mp hr with hh | hh
          · exact ⟨w, List.mem_cons_self w ws, by rw [hh], by rw [hh, hb]⟩
          · obtain ⟨w2, hw2, he, hbv⟩ := ih _ _ _ haux r hh
            exact ⟨w2, List.mem_cons_of_mem w hw2, he, hbv⟩
    · simp only [create_stocksAux, if_neg hmem] at h
      intro r hr
      obtain ⟨w2, hw2, he, hbv⟩ := ih _ _ _ h r hr
      exact ⟨w2, List.mem_cons_of_mem w hw2, he, hbv⟩

theorem create_pricesAux_snd :
    ∀ (ws : List RemnantRow) (offers : List String),
      (create_pricesAux ws offers).2 = offers := by
  intro ws
  induction ws with
  | nil => intro offers; rfl
  | cons w ws ih =>
    intro offers
    by_cases hmem : w.code ∈ offers
    · simp only [create_pricesAux, if_pos hmem]
      exact ih offers
    · simp only [create_pricesAux, if_neg hmem]
      exact ih offers

theorem create_prices_eq_nil :
    ∀ (ws : List RemnantRow) (offers : List String),
      (∀ w ∈ ws, w.code ∉ offers) → create_prices ws offers = [] := by
  intro ws
  induction ws with
  | nil => intro offers _; rfl
  | cons w ws ih =>
    intro offers hd
    have hmem : w.code ∉ offers := hd w (List.mem_cons_self w ws)
    unfold create_prices create_pricesAux
    rw [if_neg hmem]
    exact ih offers (fun w2 hw2 => hd w2 (List.mem_cons_of_mem w hw2))

theorem create_prices_mem_congr :
    ∀ (ws : List RemnantRow) (offers offers2 : List String),
      (∀ x, x ∈ offers ↔ x ∈ offers2) →
      create_prices ws offers = create_prices ws offers2 := by
  intro ws
  induction ws with
  | nil => intro _ _ _; rfl
  | cons w ws ih =>
    intro offers offers2 hm
    unfold create_prices create_pricesAux
    by_cases hmem : w.code ∈ offers
    · rw [if_pos hmem, if_pos ((hm w.code).mp hmem)]
      have := ih offers offers2 hm
      unfold create_prices at this
      simp only [this]
    · rw [if_neg hmem, if_neg (fun hc => hmem ((hm w.code).mpr hc))]
      exact ih offers offers2 hm

end Seller

namespace Market

theorem create_pricesAux_unchanged :
    ∀ (ws : List RemnantRow) (offers : List String),
      (create_pricesAux ws offers).2 = offers := by
  intro ws
  induction ws with
  | nil => intro offers; rfl
  | cons w ws ih =>
    intro offers
    by_cases hmem : w.code ∈ offers
    · simp only [create_pricesAux, if_pos hmem]
      cases hp : parsePyInt (price_conversion w.price) with
      | none => rfl
      | some v => exact ih offers
    · simp only [create_pricesAux, if_neg hmem]
      exact ih offers

theorem create_stocksAux_eq_seller (warehouse_id date : String) :
    ∀ (ws : List RemnantRow) (offers : List String),
      create_stocksAux warehouse_id date ws offers
        = (Seller.create_stocksAux ws offers).map
            (fun p => (p.1.map (fun r =>
              { sku := r.offer_id, warehouseId := warehouse_id,
                count := r.stock, updatedAt := date }), p.2)) := by
  intro ws
  induction ws with
  | nil => intro offers; rfl
  | cons w ws ih =>
    intro offers
    by_cases hmem : w.code ∈ offers
    · simp only [create_stocksAux, Seller.create_stocksAux, if_pos hmem]
      cases hb : bucketCount w.quantity with
      | none => rfl
      | some st =>
        rw [ih (offers.erase w.code)]
        cases haux : Seller.create_stocksAux ws (offers.erase w.code) with
        | none => rfl
        | some p => rfl
    · simp only [create_stocksAux, Seller.create_stocksAux, if_neg hmem]
      exact ih offers

theorem create_stocks_eq_seller (warehouse_id date : String)
    (watch_remnants : List RemnantRow) (offer_ids : List String) :
    create_stocks watch_remnants offer_ids warehouse_id date
      = (Seller.create_stocks watch_remnants offer_ids).map
          (fun l => l.map (fun r =>
            { sku := r.offer_id, warehouseId := warehouse_id,
              count := r.stock, updatedAt := date })) := by
  unfold create_stocks Seller.create_stocks
  rw [create_stocksAux_eq_seller]
  cases Seller.create_stocksAux watch_remnants offer_ids with
  | none => rfl
  | some p =>
    obtain ⟨recs1, rem1⟩ := p
    simp only [Option.map_some']
    refine congrArg some ?_
    rw [List.map_append, List.map_map]
    rfl

end Market

/-! ### Further helper lemmas -/

theorem takeWhile_append_stop (p : α → Bool) (c : α) (hc : p c = false)
    (l1 l2 : List α) : ((l1 ++ c :: l2).takeWhile p) = l1.takeWhile p := by
  induction l1 with
  | nil =>
    rw [List.nil_append, List.takeWhile_nil, List.takeWhile_cons, hc]
    rfl
  | cons a t ih =>
    rw [List.cons_append, List.takeWhile_cons, List.takeWhile_cons]
    cases p a
    · rfl
    · rw [ih]

theorem rem_no_row (ws : List RemnantRow) (offers : List String)
    (recs : List StockRecord) (rem : List String) (hnd : offers.Nodup)
    (h : Seller.create_stocksAux ws offers = some (recs, rem)) :
    ∀ id ∈ rem, ∀ w ∈ ws, w.code ≠ id := by
  intro id hid w hw he
  rw [Seller.create_stocksAux_rem ws offers recs rem hnd h] at hid
  have hall := (List.mem_filter.mp hid).2
  rw [List.all_eq_true] at hall
  have hb := hall w hw
  rw [bne_iff_ne] at hb
  exact hb he

theorem rem_mem_iff (ws : List RemnantRow) (offers : List String)
    (recs : List StockRecord) (rem : List String) (hnd : offers.Nodup)
    (h : Seller.create_stocksAux ws offers = some (recs, rem)) :
    ∀ id, id ∈ rem ↔ (id ∈ offers ∧ ∀ w ∈ ws, w.code ≠ id) := by
  intro id
  rw [Seller.create_stocksAux_rem ws offers recs rem hnd h, List.mem_filter]
  constructor
  · intro hp
    refine ⟨hp.1, fun w hw he => ?_⟩
    have hall := hp.2
    rw [List.all_eq_true] at hall
    have hb := hall w hw
    rw [bne_iff_ne] at hb
    exact hb he
  · intro hp
    refine ⟨hp.1, ?_⟩
    rw [List.all_eq_true]
    intro w hw
    rw [bne_iff_ne]
    exact hp.2 w hw

theorem isPySpace_false_of_digit (c : Char) (h : 48 ≤ c.toNat ∧ c.toNat ≤ 57) :
    isPySpace c = false := by
  unfold isPySpace
  refine decide_eq_false (fun hmem => ?_)
  simp only [pySpaceCodes, List.mem_cons, List.not_mem_nil, or_false] at hmem
  omega

theorem decDigit?_digit (c : Char) (h : 48 ≤ c.toNat ∧ c.toNat ≤ 57) :
    decDigit? c = some (c.toNat - 48) := by
  have hfind : List.find? (fun b => decide (b ≤ c.toNat ∧ c.toNat ≤ b + 9)) ndBlockStarts
      = some 48 := by
    unfold ndBlockStarts
    exact List.find?_cons_of_pos _ (decide_eq_true ⟨h.1, by omega⟩)
  unfold decDigit?
  rw [hfind]
  rfl

theorem parseDigits_digits (cs : List Char)
    (h : ∀ c ∈ cs, 48 ≤ c.toNat ∧ c.toNat ≤ 57) :
    ∀ acc, parseDigits acc cs
      = some (cs.foldl (fun a c => 10 * a + (c.toNat - 48)) acc) := by
  induction cs with
  | nil => intro acc; rfl
  | cons c1 rest ih =>
    intro acc
    have hb := h c1 (List.mem_cons_self c1 rest)
    have h95 : c1 ≠ Char.ofNat 95 := by
      intro he
      have hv : c1.toNat = 95 := by rw [he]; decide
      omega
    unfold parseDigits
    rw [if_neg h95, decDigit?_digit c1 hb]
    exact ih (fun c hc => h c (List.mem_cons_of_mem c1 hc)) (10 * acc + (c1.toNat - 48))

theorem parsePyIntAux_digits (l : List Char) (hne : l ≠ [])
    (h : ∀ c ∈ l, 48 ≤ c.toNat ∧ c.toNat ≤ 57) :
    parsePyIntAux l = some (Int.ofNat (digitsVal l)) := by
  cases l with
  | nil => exact absurd rfl hne
  | cons c cs =>
    have hb := h c (List.mem_cons_self c cs)
    have h45 : c ≠ Char.ofNat 45 := by
      intro he
      have hv : c.toNat = 45 := by rw [he]; decide
      omega
    have h43 : c ≠ Char.ofNat 43 := by
      intro he
      have hv : c.toNat = 43 := by rw [he]; decide
      omega
    have hpb : parseBody (c :: cs) = some (digitsVal (c :: cs)) := by
      simp only [parseBody]
      rw [decDigit?_digit c hb]
      have hrest : ∀ c2 ∈ cs, 48 ≤ c2.toNat ∧ c2.toNat ≤ 57 :=
        fun c2 hc2 => h c2 (List.mem_cons_of_mem c hc2)
      refine (parseDigits_digits cs hrest (c.toNat - 48)).trans ?_
      simp [digitsVal]
    simp only [parsePyIntAux]
    rw [if_neg h45, if_neg h43, hpb]
    rfl

theorem parseDigits_err (c : Char) (hd : decDigit? c = none)
    (hu : c ≠ Char.ofNat 95) :
    ∀ (n : Nat) (cs : List Char), cs.length ≤ n → c ∈ cs →
      ∀ acc, parseDigits acc cs = none := by
  intro n
  induction n with
  | zero =>
    intro cs hlen hc acc
    have hnil : cs = [] := List.eq_nil_of_length_eq_zero (Nat.le_zero.mp hlen)
    subst hnil
    simp at hc
  | succ m ih =>
    intro cs hlen hc acc
    cases cs with
    | nil => simp at hc
    | cons c1 rest =>
      unfold parseDigits
      by_cases h1 : c1 = Char.ofNat 95
      · rw [if_pos h1]
        cases rest with
        | nil => rfl
        | cons d ds =>
          show (match decDigit? d with
            | none => none
            | some v => parseDigits (10 * acc + v) ds) = none
          cases hdd : decDigit? d with
          | none => rfl
          | some v =>
            have hcds : c ∈ ds := by
              rcases List.mem_cons.mp hc with he | hh
              · exact absurd (he.trans h1) hu
              · rcases List.mem_cons.mp hh with he2 | hh2
                · rw [he2, hdd] at hd
                  exact absurd hd (by simp)
                · exact hh2
            refine ih ds ?_ hcds (10 * acc + v)
            simp only [List.length_cons] at hlen
            omega
      · rw [if_neg h1]
        cases hdd : decDigit? c1 with
        | none => rfl
        | some v =>
          have hcrest : c ∈ rest := by
            rcases List.mem_cons.mp hc with he | hh
            · rw [he, hdd] at hd
              exact absurd hd (by simp)
            · exact hh
          refine ih rest ?_ hcrest (10 * acc + v)
          simp only [List.length_cons] at hlen
          omega

theorem parseBody_err (c : Char) (hd : decDigit? c = none)
    (hu : c ≠ Char.ofNat 95) (cs : List Char) (hc : c ∈ cs) :
    parseBody cs = none := by
  cases cs with
  | nil => rfl
  | cons c1 rest =>
    simp only [parseBody]
    cases hdd : decDigit? c1 with
    | none => rfl
    | some v =>
      have hcrest : c ∈ rest := by
        rcases List.mem_cons.mp hc with he | hh
        · rw [he, hdd] at hd
          exact absurd hd (by simp)
        · exact hh
      exact parseDigits_err c hd hu rest.length rest le_rfl hcrest v

theorem dropWhile_eq_self_of (p : Char → Bool) (l : List Char)
    (h : ∀ c ∈ l, p c = false) : l.dropWhile p = l := by
  cases l with
  | nil => rfl
  | cons a t =>
    rw [List.dropWhile_cons, h a (List.mem_cons_self a t)]
    rfl

theorem stripPySpace_eq_self (l : List Char)
    (h : ∀ c ∈ l, isPySpace c = false) : stripPySpace l = l := by
  unfold stripPySpace
  rw [dropWhile_eq_self_of _ l h,
    dropWhile_eq_self_of _ l.reverse (fun c hc => h c (List.mem_reverse.mp hc)),
    List.reverse_reverse]

theorem mem_dropWhile_of (p : Char → Bool) (c : Char) (hc : p c = false) :
    ∀ l : List Char, c ∈ l → c ∈ l.dropWhile p := by
  intro l
  induction l with
  | nil => intro h; exact h
  | cons a t ih =>
    intro h
    rw [List.dropWhile_cons]
    by_cases hpa : p a = true
    · rw [hpa]
      simp only [if_true]
      refine ih ?_
      rcases List.mem_cons.mp h with he | hh
      · rw [he] at hc
        rw [hc] at hpa
        exact absurd hpa (by simp)
      · exact hh
    · rw [Bool.not_eq_true] at hpa
      rw [hpa]
      simpa using h

theorem mem_stripPySpace (c : Char) (hc : isPySpace c = false)
    (l : List Char) (h : c ∈ l) : c ∈ stripPySpace l := by
  unfold stripPySpace
  exact List.mem_reverse.mpr (mem_dropWhile_of _ c hc _
    (List.mem_reverse.mpr (mem_dropWhile_of _ c hc l h)))

/-! ### Claim theorems -/

/-- Claim C4: the count-bucketing policy is a total deterministic function of
the quantity string.  The sentinel ">10" maps to 100 and "1" to 0; any other
string is handed to the integer parser, which accepts an optionally
sign-prefixed, underscore-grouped decimal-digit literal surrounded by
whitespace and fails with a parse error on anything else — in particular a
nonempty ASCII-digit string parses to its literal value and any string
containing an ASCII character that is neither a decimal digit, a sign, an
underscore nor whitespace fails. -/
theorem count_bucketing (q : String) (h1 : q ≠ ">10") (h2 : q ≠ "1") :
    bucketCount ">10" = some 100
    ∧ bucketCount "1" = some 0
    ∧ bucketCount "7" = some 7
    ∧ bucketCount " 42 " = some 42
    ∧ bucketCount "1_0" = some 10
    ∧ bucketCount "٣" = some 3
    ∧ bucketCount "" = none
    ∧ (q.data ≠ [] → (∀ c ∈ q.data, 48 ≤ c.toNat ∧ c.toNat ≤ 57) →
        bucketCount q = some (Int.ofNat (digitsVal q.data)))
    ∧ ((∃ c ∈ q.data, c.toNat < 128 ∧ decDigit? c = none ∧ c ≠ Char.ofNat 45
          ∧ c ≠ Char.ofNat 43 ∧ c ≠ Char.ofNat 95 ∧ isPySpace c = false) →
        bucketCount q = none) := by
  have hbq : bucketCount q = parsePyInt q := by
    unfold bucketCount
    rw [if_neg h1, if_neg h2]
  refine ⟨by decide, by decide, by decide, by decide, by decide, by decide,
    by decide, ?_, ?_⟩
  · intro hne hdig
    rw [hbq]
    unfold parsePyInt
    rw [stripPySpace_eq_self q.data
      (fun c hc => isPySpace_false_of_digit c (hdig c hc))]
    refine parsePyIntAux_digits q.data ?_ hdig
    exact hne
  · rintro ⟨c, hcm, hascii, hdnone, h45, h43, h95, hsp⟩
    rw [hbq]
    unfold parsePyInt
    have hcs := mem_stripPySpace c hsp q.data hcm
    cases hl : stripPySpace q.data with
    | nil => rfl
    | cons c1 rest =>
      rw [hl] at hcs
      simp only [parsePyIntAux]
      by_cases e45 : c1 = Char.ofNat 45
      · rw [if_pos e45]
        have hcr : c ∈ rest := by
          rcases List.mem_cons.mp hcs with he | hh
          · exact absurd (he.trans e45) h45
          · exact hh
        rw [parseBody_err c hdnone h95 rest hcr]
        rfl
      · rw [if_neg e45]
        by_cases e43 : c1 = Char.ofNat 43
        · rw [if_pos e43]
          have hcr : c ∈ rest := by
            rcases List.mem_cons.mp hcs with he | hh
            · exact absurd (he.trans e43) h43
            · exact hh
          rw [parseBody_err c hdnone h95 rest hcr]
          rfl
        · rw [if_neg e43]
          rw [parseBody_err c hdnone h95 (c1 :: rest) hcs]
          rfl

/-- Concrete instance of C4 discharging its hypotheses at q = "abc". -/
theorem count_bucketing_witness : bucketCount "abc" = none :=
  (count_bucketing "abc" (by decide) (by decide)).2.2.2.2.2.2.2.2
    ⟨Char.ofNat 97, by decide, by decide, by decide, by decide, by decide,
     by decide, by decide⟩

/-- The documented example input of `price_conversion`: the source docstring
separates the thousands with an apostrophe (codepoint 39). -/
def rubExample : String := "5" ++ String.singleton (Char.ofNat 39) ++ "990.00 руб."

/-- Claim C5: the price normalizer keeps exactly the ASCII digits of the part
of the string before its first dot — it truncates the fractional part rather
than rounding, and a string with no digit before its first dot normalizes to
the empty string. -/
theorem price_conversion_spec :
    price_conversion rubExample = "5990"
    ∧ price_conversion "1,234.56" = "1234"
    ∧ (∀ a b : String, price_conversion (a ++ "." ++ b) = price_conversion a)
    ∧ ∀ s : String,
        (∀ c ∈ s.data.takeWhile (fun c => c != dotChar), c.isDigit = false) →
        price_conversion s = "" := by
  refine ⟨by decide, by decide, ?_, ?_⟩
  · intro a b
    unfold price_conversion
    have hdot : ("." : String).data = [dotChar] := by decide
    have hdata : (a ++ "." ++ b).data = a.data ++ dotChar :: b.data := by
      rw [String.data_append, String.data_append, hdot]
      rw [List.append_assoc]
      rfl
    rw [hdata, takeWhile_append_stop _ dotChar (by decide)]
  · intro s hnd
    unfold price_conversion
    have hf : (s.data.takeWhile (fun c => c != dotChar)).filter Char.isDigit = [] := by
      rw [List.filter_eq_nil_iff]
      intro c hc
      rw [hnd c hc]
      exact Bool.false_ne_true
    rw [hf]

/-- Concrete instance of C5 discharging the hypothesis of its last clause. -/
theorem price_conversion_spec_witness : price_conversion ".99" = "" :=
  price_conversion_spec.2.2.2 ".99" (by decide)

/-- Claim C6: for a positive chunk size the chunker succeeds, its chunks
concatenate back to the input in order, every chunk but possibly the last
has exactly the requested length, and the chunk count is the ceiling of
length over chunk size. -/
theorem divide_spec (lst : List α) (n : Int) (hn : 0 < n) :
    ∃ cs, divide lst n = some cs
      ∧ cs.flatten = lst
      ∧ (∀ c ∈ cs.dropLast, c.length = n.toNat)
      ∧ cs.length = (lst.length + n.toNat - 1) / n.toNat := by
  have hk : 0 < n.toNat := by omega
  refine ⟨pyChunks n.toNat lst, ?_, pyChunks_flatten _ hk lst,
    pyChunks_chunk_len _ hk lst, pyChunks_count _ lst⟩
  unfold divide
  rw [if_neg (by omega), if_neg (by omega)]

/-- Concrete instance of C6 discharging its hypothesis at n = 2. -/
theorem divide_spec_witness :
    ∃ cs, divide ([1, 2, 3] : List Nat) (2 : Int) = some cs
      ∧ cs.flatten = [1, 2, 3]
      ∧ (∀ c ∈ cs.dropLast, c.length = (2 : Int).toNat)
      ∧ cs.length = (([1, 2, 3] : List Nat).length + (2 : Int).toNat - 1) / (2 : Int).toNat :=
  divide_spec [1, 2, 3] 2 (by decide)

/-- Claim C7 is false as stated: with a negative chunk size the generator
raises no error at all — `range(0, len, n)` is simply empty, so the call
yields no chunk and completes silently. -/
theorem divide_neg_counterexample :
    divide ([1, 2, 3] : List Nat) (-1 : Int) = some []
    ∧ divide ([1, 2, 3] : List Nat) (-1 : Int) ≠ none := by
  decide

/-- Claim C7 (amended): with chunk size 0 the generator raises `ValueError`
when first advanced and yields no chunk; with a negative chunk size it
raises nothing and yields no chunk. -/
theorem divide_nonpos (lst : List α) (n : Int) (hn : n ≤ 0) :
    divide lst n = if n = 0 then none else some [] := by
  by_cases h0 : n = 0
  · subst h0
    unfold divide
    rw [if_pos rfl, if_pos rfl]
  · unfold divide
    rw [if_neg h0, if_pos (by omega), if_neg h0]

/-- Concrete instance of the amended C7 at n = -1. -/
theorem divide_nonpos_witness :
    divide ([1, 2, 3] : List Nat) (-1 : Int) = if (-1 : Int) = 0 then none else some [] :=
  divide_nonpos [1, 2, 3] (-1) (by decide)

/-- Claim C8 is false as stated for marketplace B: `market.create_stocks`
stamps every record with the clock reading captured at call time, so two
runs on identical remnants and offer-id inputs produce records that differ
in the `updatedAt` field. -/
theorem market_create_stocks_clock_counterexample :
    Market.create_stocks [⟨"A", "5", "9.00"⟩] ["A"] "W1" "2024-01-01T00:00:00Z"
      ≠ Market.create_stocks [⟨"A", "5", "9.00"⟩] ["A"] "W1" "2024-01-02T00:00:00Z" := by
  decide

/-- Claim C8 (amended): reconciliation is deterministic in its inputs and the
captured timestamp — re-running `market.create_stocks` on unchanged inputs
yields record sets identical except possibly in the `updatedAt` clock field
(and exactly identical when the captured clock reading is the same). -/
theorem market_create_stocks_date_invariant (watch_remnants : List RemnantRow)
    (offer_ids : List String) (warehouse_id d1 d2 : String) :
    (Market.create_stocks watch_remnants offer_ids warehouse_id d1).map
        (fun l => l.map (fun r => (r.sku, r.warehouseId, r.count)))
      = (Market.create_stocks watch_remnants offer_ids warehouse_id d2).map
        (fun l => l.map (fun r => (r.sku, r.warehouseId, r.count))) := by
  rw [Market.create_stocks_eq_seller, Market.create_stocks_eq_seller]
  cases Seller.create_stocks watch_remnants offer_ids with
  | none => rfl
  | some l =>
    simp only [Option.map_some', List.map_map]
    rfl

/-- Claim C9: the price reconcilers only run membership tests on the offer-id
list — threading the list through the loop returns it unchanged in both
marketplaces, the output depends on the list only through membership, and
this is an intentional asymmetry with the stock reconciler, which does
consume the list. -/
theorem create_prices_frame (watch_remnants : List RemnantRow)
    (offers offers2 : List String) (hm : ∀ x, x ∈ offers ↔ x ∈ offers2) :
    (Seller.create_pricesAux watch_remnants offers).2 = offers
    ∧ (Market.create_pricesAux watch_remnants offers).2 = offers
    ∧ Seller.create_prices watch_remnants offers
        = Seller.create_prices watch_remnants offers2
    ∧ ∃ (r : List RemnantRow) (o : List String),
        (Seller.create_stocksAux r o).map Prod.snd ≠ some o :=
  ⟨Seller.create_pricesAux_snd _ _, Market.create_pricesAux_unchanged _ _,
   Seller.create_prices_mem_congr _ _ _ hm,
   ⟨[⟨"A", "5", "9.00"⟩], ["A"], by decide⟩⟩

/-- Concrete instance of C9. -/
theorem create_prices_frame_witness :
    (Seller.create_pricesAux [⟨"A", "5", "9.00"⟩] ["A", "B"]).2 = ["A", "B"]
    ∧ (Market.create_pricesAux [⟨"A", "5", "9.00"⟩] ["A", "B"]).2 = ["A", "B"]
    ∧ Seller.create_prices [⟨"A", "5", "9.00"⟩] ["A", "B"]
        = Seller.create_prices [⟨"A", "5", "9.00"⟩] ["A", "B"]
    ∧ ∃ (r : List RemnantRow) (o : List String),
        (Seller.create_stocksAux r o).map Prod.snd ≠ some o :=
  create_prices_frame [⟨"A", "5", "9.00"⟩] ["A", "B"] ["A", "B"] (fun _ => Iff.rfl)

/-- Claim C10: on a remnant row whose code is a known offer and whose price
normalizes to the empty string, marketplace A's reconciler emits a record
with the empty price while marketplace B's reconciler raises, because it
feeds the normalized price to `int()`. -/
theorem price_partiality_asymmetry (w : RemnantRow) (offers : List String)
    (hmem : w.code ∈ offers) (hp : price_conversion w.price = "") :
    Market.create_prices [w] offers = none
    ∧ Seller.create_prices [w] offers
        = [{ auto_action_enabled := "UNKNOWN", currency_code := "RUB",
             offer_id := w.code, old_price := "0", price := "" }] := by
  constructor
  · unfold Market.create_prices Market.create_pricesAux
    rw [if_pos hmem, hp]
    have he : parsePyInt "" = none := by decide
    rw [he]
  · unfold Seller.create_prices Seller.create_pricesAux
    rw [if_pos hmem, hp]
    rfl

/-- Claim C1: on a duplicate-free offer-id catalog the stock reconciler
emits exactly one record per known offer id (duplicate remnant rows cannot
produce duplicate records, because each matched id is consumed), every
matched id carries a matching row's bucketed count, every id with no
matching row gets a zero-stock record, matched records precede the
zero-fill records, and marketplace B's reconciler produces the same records
in its own shape. -/
theorem create_stocks_reconciliation (watch_remnants : List RemnantRow)
    (offer_ids : List String) (stocks : List StockRecord)
    (hnd : offer_ids.Nodup)
    (h : Seller.create_stocks watch_remnants offer_ids = some stocks) :
    (∀ id : String, (stocks.map StockRecord.offer_id).count id
        = if id ∈ offer_ids then 1 else 0)
    ∧ (∃ matched zeros, stocks = matched ++ zeros
        ∧ (∀ r ∈ matched, ∃ w ∈ watch_remnants,
            w.code = r.offer_id ∧ bucketCount w.quantity = some r.stock)
        ∧ (∀ r ∈ zeros, r.stock = 0 ∧ ∀ w ∈ watch_remnants, w.code ≠ r.offer_id))
    ∧ (∀ id ∈ offer_ids, (∀ w ∈ watch_remnants, w.code ≠ id) →
        ({ offer_id := id, stock := 0 } : StockRecord) ∈ stocks)
    ∧ (∀ warehouse_id date : String,
        Market.create_stocks watch_remnants offer_ids warehouse_id date
          = some (stocks.map (fun r =>
              { sku := r.offer_id, warehouseId := warehouse_id,
                count := r.stock, updatedAt := date }))) := by
  have h2 := h
  unfold Seller.create_stocks at h2
  obtain ⟨⟨recs, rem⟩, haux, hstocks⟩ := Option.map_eq_some'.mp h2
  have hmapid : stocks.map StockRecord.offer_id
      = recs.map StockRecord.offer_id ++ rem := by
    rw [← hstocks, List.map_append, List.map_map]
    refine congrArg _ ?_
    calc List.map
          (StockRecord.offer_id ∘ fun id => ({ offer_id := id, stock := 0 } : StockRecord)) rem
        = List.map id rem := List.map_congr_left (fun x _ => rfl)
      _ = rem := List.map_id rem
  have hperm := Seller.create_stocksAux_perm watch_remnants offer_ids recs rem haux
  refine ⟨?_, ?_, ?_, ?_⟩
  · intro id
    rw [hmapid, hperm.count_eq id]
    by_cases hmem : id ∈ offer_ids
    · rw [if_pos hmem]
      exact List.count_eq_one_of_mem hnd hmem
    · rw [if_neg hmem]
      exact List.count_eq_zero_of_not_mem hmem
  · refine ⟨recs, rem.map (fun id => { offer_id := id, stock := 0 }), hstocks.symm,
      Seller.create_stocksAux_matched _ _ _ _ haux, ?_⟩
    intro r hr
    obtain ⟨id, hid, hre⟩ := List.mem_map.mp hr
    constructor
    · rw [← hre]
    · rw [← hre]
      intro w hw
      exact rem_no_row _ _ _ _ hnd haux id hid w hw
  · intro id hid hnorow
    have hidrem : id ∈ rem := (rem_mem_iff _ _ _ _ hnd haux id).mpr ⟨hid, hnorow⟩
    rw [← hstocks]
    exact List.mem_append_right _ (List.mem_map.mpr ⟨id, hidrem, rfl⟩)
  · intro warehouse_id date
    rw [Market.create_stocks_eq_seller, h, Option.map_some']

/-- Concrete instance of C1 at the spec's worked example (offers A, B, C;
rows A with quantity 5 and B with quantity ">10"). -/
theorem create_stocks_reconciliation_witness :
    (([ { offer_id := "A", stock := 5 }, { offer_id := "B", stock := 100 },
        { offer_id := "C", stock := 0 } ] : List StockRecord).map
        StockRecord.offer_id).count "C" = if "C" ∈ ["A", "B", "C"] then 1 else 0 :=
  (create_stocks_reconciliation [⟨"A", "5", "9.00"⟩, ⟨"B", ">10", "9.00"⟩]
    ["A", "B", "C"] [⟨"A", 5⟩, ⟨"B", 100⟩, ⟨"C", 0⟩] (by decide) (by decide)).1 "C"

/-- Claim C2 (code bug): in `seller.main` the offer-id list passed to
`create_prices` is the very list just consumed in place by `create_stocks`,
so on a duplicate-free catalog the price list is empty whenever the run does
not raise: no known offer matched to a remnant row receives a price
record. -/
theorem main_prices_lost (watch_remnants : List RemnantRow)
    (offer_ids : List String) (hnd : offer_ids.Nodup) :
    Seller.main_prices watch_remnants offer_ids = none
    ∨ Seller.main_prices watch_remnants offer_ids = some [] := by
  unfold Seller.main_prices
  cases haux : Seller.create_stocksAux watch_remnants offer_ids with
  | none => exact Or.inl rfl
  | some p =>
    obtain ⟨recs, rem⟩ := p
    refine Or.inr ?_
    simp only [Option.map_some']
    refine congrArg some ?_
    refine Seller.create_prices_eq_nil _ _ (fun w hw hc => ?_)
    exact rem_no_row _ _ _ _ hnd haux w.code hc w hw rfl

/-- Concrete instance of C2: one known offer with a matching remnant row,
yet `seller.main` builds an empty price list. -/
theorem main_prices_lost_witness :
    Seller.main_prices [⟨"A", "5", "100.00"⟩] ["A"] = none
    ∨ Seller.main_prices [⟨"A", "5", "100.00"⟩] ["A"] = some [] :=
  main_prices_lost [⟨"A", "5", "100.00"⟩] ["A"] (by decide)

/-- Claim C3 (code bug): completed driver runs issue no price-update call at
all.  In `seller.main` the stock-update batch is issued but the price list
is empty (claim C2's aliasing bug), so the trace holds a single stock batch
and nothing else; in `market.main` each campaign leg issues its stock
batches and then invokes the async `upload_prices` without awaiting it, so
no price-update call ever reaches the network. -/
theorem main_traces_no_price_calls :
    Seller.main_events [⟨"A", "5", "100.00"⟩] ["A", "B"]
        = some [Seller.SellerEvent.updateStocks
            [{ offer_id := "A", stock := 5 }, { offer_id := "B", stock := 0 }]]
    ∧ Market.main_events [⟨"A", "5", "100.00"⟩] ["A"] ["A"] "WF" "WD" "T1" "T2"
        = some [Market.MarketEvent.updateStocks
            [{ sku := "A", warehouseId := "WF", count := 5, updatedAt := "T1" }],
          Market.MarketEvent.updateStocks
            [{ sku := "A", warehouseId := "WD", count := 5, updatedAt := "T2" }]] := by
  decide

/-- Concrete instance of C10 at the digit-less price ".00". -/
theorem price_partiality_asymmetry_witness :
    Market.create_prices [⟨"A", "5", ".00"⟩] ["A"] = none
    ∧ Seller.create_prices [⟨"A", "5", ".00"⟩] ["A"]
        = [{ auto_action_enabled := "UNKNOWN", currency_code := "RUB",
             offer_id := "A", old_price := "0", price := "" }] :=
  price_partiality_asymmetry ⟨"A", "5", ".00"⟩ ["A"] (by decide) (by decide)

end SellerApis
